import Mathlib

/-!
Shallow embedding of `src/Modules/TrajectoryPlanners/Astar/Node.cpp`
(class `Node`: the A* search-node representation, its distance / goal /
ordering operations and the successor generator `GenerateChildren`).

Machine doubles are modelled as real numbers.  A C++ method that mutates
its receiver is modelled as a function also returning the updated
receiver.  A scalar member that the source leaves uninitialized is
modelled by an explicit `junk…` argument holding the indeterminate prior
value of that memory; a function falling off the end of a non-void
function (no `return`) is modelled by an `Option` return value, `none`
meaning "no value was returned".
-/

open Real

/-- The C++ `Node` record: `parent` (a pointer, modelled as an abstract
address), `index`, the state doubles `x y z vx vy vz psi vs speed`, the
search bookkeeping doubles `g h neighborhood`, and `children`
(`std::list<Node>`, holding copies of nodes). -/
inductive Node : Type where
  | mk (parent : Option ℕ) (index : ℤ)
      (x y z vx vy vz psi vs speed g h neighborhood : ℝ)
      (children : List Node) : Node

namespace Node

def parent : Node → Option ℕ | .mk p _ _ _ _ _ _ _ _ _ _ _ _ _ _ => p
def index : Node → ℤ | .mk _ i _ _ _ _ _ _ _ _ _ _ _ _ _ => i
def x : Node → ℝ | .mk _ _ a _ _ _ _ _ _ _ _ _ _ _ _ => a
def y : Node → ℝ | .mk _ _ _ a _ _ _ _ _ _ _ _ _ _ _ => a
def z : Node → ℝ | .mk _ _ _ _ a _ _ _ _ _ _ _ _ _ _ => a
def vx : Node → ℝ | .mk _ _ _ _ _ a _ _ _ _ _ _ _ _ _ => a
def vy : Node → ℝ | .mk _ _ _ _ _ _ a _ _ _ _ _ _ _ _ => a
def vz : Node → ℝ | .mk _ _ _ _ _ _ _ a _ _ _ _ _ _ _ => a
def psi : Node → ℝ | .mk _ _ _ _ _ _ _ _ a _ _ _ _ _ _ => a
def vs : Node → ℝ | .mk _ _ _ _ _ _ _ _ _ a _ _ _ _ _ => a
def speed : Node → ℝ | .mk _ _ _ _ _ _ _ _ _ _ a _ _ _ _ => a
def g : Node → ℝ | .mk _ _ _ _ _ _ _ _ _ _ _ a _ _ _ => a
def h : Node → ℝ | .mk _ _ _ _ _ _ _ _ _ _ _ _ a _ _ => a
def neighborhood : Node → ℝ | .mk _ _ _ _ _ _ _ _ _ _ _ _ _ a _ => a
def children : Node → List Node | .mk _ _ _ _ _ _ _ _ _ _ _ _ _ _ c => c

/-- Replace the `children` member, keeping every other member. -/
def setChildren : Node → List Node → Node
  | .mk p i a b c d e f p2 v s gg hh nb _, cs => .mk p i a b c d e f p2 v s gg hh nb cs

@[simp] theorem parent_mk (p i a b c d e f p2 v s gg hh nb cs) :
    (Node.mk p i a b c d e f p2 v s gg hh nb cs).parent = p := rfl

@[simp] theorem index_mk (p i a b c d e f p2 v s gg hh nb cs) :
    (Node.mk p i a b c d e f p2 v s gg hh nb cs).index = i := rfl

@[simp] theorem x_mk (p i a b c d e f p2 v s gg hh nb cs) :
    (Node.mk p i a b c d e f p2 v s gg hh nb cs).x = a := rfl

@[simp] theorem y_mk (p i a b c d e f p2 v s gg hh nb cs) :
    (Node.mk p i a b c d e f p2 v s gg hh nb cs).y = b := rfl

@[simp] theorem z_mk (p i a b c d e f p2 v s gg hh nb cs) :
    (Node.mk p i a b c d e f p2 v s gg hh nb cs).z = c := rfl

@[simp] theorem psi_mk (p i a b c d e f p2 v s gg hh nb cs) :
    (Node.mk p i a b c d e f p2 v s gg hh nb cs).psi = p2 := rfl

@[simp] theorem vs_mk (p i a b c d e f p2 v s gg hh nb cs) :
    (Node.mk p i a b c d e f p2 v s gg hh nb cs).vs = v := rfl

@[simp] theorem speed_mk (p i a b c d e f p2 v s gg hh nb cs) :
    (Node.mk p i a b c d e f p2 v s gg hh nb cs).speed = s := rfl

@[simp] theorem g_mk (p i a b c d e f p2 v s gg hh nb cs) :
    (Node.mk p i a b c d e f p2 v s gg hh nb cs).g = gg := rfl

@[simp] theorem h_mk (p i a b c d e f p2 v s gg hh nb cs) :
    (Node.mk p i a b c d e f p2 v s gg hh nb cs).h = hh := rfl

@[simp] theorem neighborhood_mk (p i a b c d e f p2 v s gg hh nb cs) :
    (Node.mk p i a b c d e f p2 v s gg hh nb cs).neighborhood = nb := rfl

@[simp] theorem children_mk (p i a b c d e f p2 v s gg hh nb cs) :
    (Node.mk p i a b c d e f p2 v s gg hh nb cs).children = cs := rfl

@[simp] theorem setChildren_mk (p i a b c d e f p2 v s gg hh nb cs cs') :
    (Node.mk p i a b c d e f p2 v s gg hh nb cs).setChildren cs' =
      Node.mk p i a b c d e f p2 v s gg hh nb cs' := rfl

/-- Constructor `Node::Node(Node* _parent, int index, double xl, double yl,
double zl, double psil, double vsl, double speedl)`.  The body assigns `parent`,
`x y z`, `vx vy vz` (to 0), `psi vs speed`, `g h` (to 0) and
`neighborhood` (to 5).  It does NOT assign the member `index`, so the
member keeps the indeterminate value the freshly allocated memory held;
that value is the explicit argument `junkIndex` here.  The member
`children` is a `std::list`, default-constructed to empty. -/
def init (junkIndex : ℤ) (_parent : Option ℕ) (index : ℤ)
    (xl yl zl psil vsl speedl : ℝ) : Node :=
  Node.mk _parent junkIndex xl yl zl 0 0 0 psil vsl speedl 0 0 5 []

/-- Method `double Node::NodeDist(Node B)`:
`sqrt(pow((x - B.x),2) + pow((y - B.y),2))`. -/
noncomputable def NodeDist (self B : Node) : ℝ :=
  Real.sqrt ((self.x - B.x) ^ 2 + (self.y - B.y) ^ 2)

/-- Method `bool Node::GoalCheck(Node goal)`: true when
`NodeDist(goal) < neighborhood`, false otherwise. -/
def GoalCheck (self goal : Node) : Prop :=
  self.NodeDist goal < self.neighborhood

/-- Method `bool Node::AddChild(Node child)`: scans `children`; on finding an
entry whose `index` equals `child.index` it returns `false` with the
receiver unchanged.  Otherwise it appends `child` to `children` and then
falls off the end of the function WITHOUT a return statement; the
returned bool is therefore `none` (no value).  First component: the
returned value; second: the updated receiver. -/
def AddChild (self : Node) (child : Node) : Option Bool × Node :=
  if self.children.any (fun it => it.index == child.index) then
    (some false, self)
  else
    (none, self.setChildren (self.children ++ [child]))

/-- Comparison `bool Node::operator<(Node &B)`: true when `g + h < B.g + B.h`,
false otherwise. -/
def lt (self B : Node) : Prop :=
  self.g + self.h < B.g + B.h

/-- Comparison `bool Node::operator!=(Node &B)`: true when the indices differ. -/
def ne (self B : Node) : Prop :=
  self.index ≠ B.index

/-- The inner `for(j)` loop body of `Node::GenerateChildren`, iterated
over the remaining entries of the `vspeed` array.  Arguments: `selfAddr`
the address of `this` (stored as each child's parent pointer), `junk`
the indeterminate memory contents picked up by the `k`-th constructed
child's unassigned `index` member, `dpsi = heading[i]` the current outer
loop value, `dt` the time step, `k` the running count of children
constructed so far, and `nodeList` the list `*nodeList` is appended to.
Returns the updated list and counter.  Mirrors the source body:
`dvs = vspeed[j]` is read but never used; the child is constructed with
`totalNodes = nodeList->size()` as (discarded) index argument, parent
`this`, heading `psi+dpsi`, vertical speed `vs` and speed `2`; it is
then added to its own children (`_child.AddChild(_child)`) and pushed
onto `nodeList`. -/
noncomputable def genVS (self : Node) (selfAddr : ℕ) (junk : ℕ → ℤ) (dpsi : ℝ) (dt : ℝ) :
    ℕ → List ℝ → List Node → List Node × ℕ
  | k, [], nodeList => (nodeList, k)
  | k, dvs :: rest, nodeList =>
      let xnew := self.x + self.speed *
        Real.sin (dpsi * Real.pi / 180 + self.psi * Real.pi / 180) * dt
      let ynew := self.y + self.speed *
        Real.cos (dpsi * Real.pi / 180 + self.psi * Real.pi / 180) * dt
      let znew := self.z + self.vs * dt
      let totalNodes : ℤ := nodeList.length
      let child := Node.init (junk k) (some selfAddr) totalNodes
        xnew ynew znew (self.psi + dpsi) self.vs 2
      let child2 := (child.AddChild child).2
      genVS self selfAddr junk dpsi dt (k + 1) rest (nodeList ++ [child2])

/-- The outer `for(i)` loop of `Node::GenerateChildren`, iterated over
the remaining entries of the `heading` array. -/
noncomputable def genH (self : Node) (selfAddr : ℕ) (junk : ℕ → ℤ) (vspeed : List ℝ) (dt : ℝ) :
    ℕ → List ℝ → List Node → List Node × ℕ
  | k, [], nodeList => (nodeList, k)
  | k, dpsi :: rest, nodeList =>
      let r := genVS self selfAddr junk dpsi dt k vspeed nodeList
      genH self selfAddr junk vspeed dt r.2 rest r.1

/-- Method `void Node::GenerateChildren(int lenH, int lenV, double* heading,
double* vspeed, double dt, std::list<Node>* nodeList)`.  The arrays with
their lengths are modelled as lists.  Returns the receiver (`this` is
never written to by the method) and the final contents of `*nodeList`. -/
noncomputable def GenerateChildren (self : Node) (selfAddr : ℕ) (junk : ℕ → ℤ)
    (heading vspeed : List ℝ) (dt : ℝ) (nodeList : List Node) :
    Node × List Node :=
  (self, (genH self selfAddr junk vspeed dt 0 heading nodeList).1)

/-- The child value pushed onto `nodeList` for loop values `dpsi` (from
`heading`) when the constructed child's unassigned `index` member picked
up `jk`: the freshly constructed node, after `_child.AddChild(_child)`
has appended a copy of it to its own (empty) children list.  The `index`
constructor argument is irrelevant (the constructor ignores it), so `0`
is passed here. -/
noncomputable def mkChild (self : Node) (selfAddr : ℕ) (jk : ℤ) (dpsi : ℝ) (dt : ℝ) : Node :=
  let c := Node.init jk (some selfAddr) 0
    (self.x + self.speed *
      Real.sin (dpsi * Real.pi / 180 + self.psi * Real.pi / 180) * dt)
    (self.y + self.speed *
      Real.cos (dpsi * Real.pi / 180 + self.psi * Real.pi / 180) * dt)
    (self.z + self.vs * dt) (self.psi + dpsi) self.vs 2
  (c.AddChild c).2

/-- Replace the `z` member, keeping every other member (used to state
that the horizontal-only operations ignore altitude). -/
def setZ : Node → ℝ → Node
  | .mk p i a b _ d e f p2 v s gg hh nb cs, zz =>
      .mk p i a b zz d e f p2 v s gg hh nb cs

@[simp] theorem setZ_mk (p i a b c d e f p2 v s gg hh nb cs zz) :
    (Node.mk p i a b c d e f p2 v s gg hh nb cs).setZ zz =
      Node.mk p i a b zz d e f p2 v s gg hh nb cs := rfl

/-- The full block of children `GenerateChildren` appends to `*nodeList`:
for each `dpsi` of the remaining heading entries, one child per index
`j < vlen` of the vspeed array (`vlen = lenV`), constructed while the
running creation counter is `k + j`. -/
noncomputable def expandList (self : Node) (addr : ℕ) (junk : ℕ → ℤ) (dt : ℝ)
    (vlen : ℕ) : ℕ → List ℝ → List Node
  | _, [] => []
  | k, dpsi :: rest =>
      (List.range vlen).map (fun j => self.mkChild addr (junk (k + j)) dpsi dt) ++
        expandList self addr junk dt vlen (k + vlen) rest

/-- Characterization of the inner loop: it appends one child per vspeed
entry, all with the same `dpsi`, and advances the creation counter. -/
theorem genVS_spec (self : Node) (addr : ℕ) (junk : ℕ → ℤ) (dpsi dt : ℝ) :
    ∀ (vsl : List ℝ) (k : ℕ) (nodeList : List Node),
      genVS self addr junk dpsi dt k vsl nodeList =
        (nodeList ++ (List.range vsl.length).map
          (fun j => self.mkChild addr (junk (k + j)) dpsi dt), k + vsl.length) := by
  intro vsl
  induction vsl with
  | nil =>
      intro k nodeList
      simp [genVS]
  | cons dvs rest ih =>
      intro k nodeList
      simp only [genVS]
      rw [ih]
      simp only [Prod.mk.injEq]
      constructor
      · show (nodeList ++ [self.mkChild addr (junk k) dpsi dt]) ++
            (List.range rest.length).map
              (fun j => self.mkChild addr (junk (k + 1 + j)) dpsi dt) =
            nodeList ++ (List.range (rest.length + 1)).map
              (fun j => self.mkChild addr (junk (k + j)) dpsi dt)
        rw [List.range_succ_eq_map, List.map_cons, List.map_map, List.append_assoc,
          List.singleton_append, Nat.add_zero]
        have harg : ((fun j => self.mkChild addr (junk (k + j)) dpsi dt) ∘ Nat.succ)
            = fun j => self.mkChild addr (junk (k + 1 + j)) dpsi dt := by
          funext j
          simp only [Function.comp_apply]
          have h1 : k + Nat.succ j = k + 1 + j := by omega
          rw [h1]
        rw [harg]
        simp
      · show k + 1 + rest.length = k + (rest.length + 1)
        omega

/-- Characterization of the two nested loops of `GenerateChildren`: the
final list is the initial one followed by `expandList`, and the creation
counter advances by `lenH * lenV`. -/
theorem genH_spec (self : Node) (addr : ℕ) (junk : ℕ → ℤ) (vspeed : List ℝ) (dt : ℝ) :
    ∀ (hl : List ℝ) (k : ℕ) (nodeList : List Node),
      genH self addr junk vspeed dt k hl nodeList =
        (nodeList ++ expandList self addr junk dt vspeed.length k hl,
          k + hl.length * vspeed.length) := by
  intro hl
  induction hl with
  | nil =>
      intro k nodeList
      simp [genH, expandList]
  | cons dpsi rest ih =>
      intro k nodeList
      simp only [genH, genVS_spec, ih, expandList]
      simp only [Prod.mk.injEq]
      constructor
      · rw [List.append_assoc]
      · show k + vspeed.length + rest.length * vspeed.length =
            k + (rest.length + 1) * vspeed.length
        ring

/-- The final `*nodeList` contents of `GenerateChildren`. -/
theorem GenerateChildren_list (self : Node) (addr : ℕ) (junk : ℕ → ℤ)
    (heading vspeed : List ℝ) (dt : ℝ) (nodeList : List Node) :
    (self.GenerateChildren addr junk heading vspeed dt nodeList).2 =
      nodeList ++ expandList self addr junk dt vspeed.length 0 heading := by
  simp only [GenerateChildren, genH_spec]

/-- The block of appended children has exactly `lenH * lenV` entries. -/
theorem length_expandList (self : Node) (addr : ℕ) (junk : ℕ → ℤ) (dt : ℝ)
    (vlen : ℕ) : ∀ (hl : List ℝ) (k : ℕ),
    (expandList self addr junk dt vlen k hl).length = hl.length * vlen := by
  intro hl
  induction hl with
  | nil => intro k; simp [expandList]
  | cons dpsi rest ih =>
      intro k
      simp only [expandList, List.length_append, List.length_map, List.length_range, ih,
        List.length_cons]
      ring

/-- Any projection of a generated child that does not depend on the junk
index value is constant across the vspeed dimension: mapping it over the
appended block yields, per heading entry, `lenV` copies of its value. -/
theorem map_expandList {α : Type} (self : Node) (addr : ℕ) (junk : ℕ → ℤ) (dt : ℝ)
    (vlen : ℕ) (f : Node → α) (F : ℝ → α)
    (hf : ∀ (jk : ℤ) (dpsi : ℝ), f (self.mkChild addr jk dpsi dt) = F dpsi) :
    ∀ (hl : List ℝ) (k : ℕ),
      (expandList self addr junk dt vlen k hl).map f =
        hl.flatMap (fun dpsi => List.replicate vlen (F dpsi)) := by
  intro hl
  induction hl with
  | nil => intro k; simp [expandList]
  | cons dpsi rest ih =>
      intro k
      simp only [expandList, List.map_append, List.map_map, ih, List.flatMap_cons]
      congr 1
      have hconst : (f ∘ fun j => self.mkChild addr (junk (k + j)) dpsi dt)
          = Function.const ℕ (F dpsi) := by
        funext j
        simp [Function.const, hf]
      rw [hconst, List.map_const, List.length_range]

/-- Every entry of the appended block is a generated child for some junk
index value and some heading entry. -/
theorem mem_expandList (self : Node) (addr : ℕ) (junk : ℕ → ℤ) (dt : ℝ)
    (vlen : ℕ) : ∀ (hl : List ℝ) (k : ℕ) (c : Node),
      c ∈ expandList self addr junk dt vlen k hl →
        ∃ (jk : ℤ) (dpsi : ℝ), dpsi ∈ hl ∧ c = self.mkChild addr jk dpsi dt := by
  intro hl
  induction hl with
  | nil => intro k c hc; simp [expandList] at hc
  | cons dpsi rest ih =>
      intro k c hc
      simp only [expandList, List.mem_append] at hc
      rcases hc with hc | hc
      · rcases List.mem_map.mp hc with ⟨j, _, rfl⟩
        exact ⟨junk (k + j), dpsi, by simp, rfl⟩
      · rcases ih (k + vlen) c hc with ⟨jk, d, hd, rfl⟩
        exact ⟨jk, d, by simp [hd], rfl⟩

/-- Flat-mapping a constant block is a replicate. -/
theorem flatMap_replicate_const {α : Type} (c : α) (n : ℕ) :
    ∀ (l : List ℝ), (l.flatMap fun _ => List.replicate n c) =
      List.replicate (l.length * n) c := by
  intro l
  induction l with
  | nil => simp
  | cons a rest ih =>
      simp only [List.flatMap_cons, ih, List.length_cons]
      rw [show (rest.length + 1) * n = n + rest.length * n by ring, List.replicate_add]

@[simp] theorem x_setZ (A : Node) (zz : ℝ) : (A.setZ zz).x = A.x := by cases A; rfl

@[simp] theorem y_setZ (A : Node) (zz : ℝ) : (A.setZ zz).y = A.y := by cases A; rfl

@[simp] theorem z_setZ (A : Node) (zz : ℝ) : (A.setZ zz).z = zz := by cases A; rfl

@[simp] theorem neighborhood_setZ (A : Node) (zz : ℝ) :
    (A.setZ zz).neighborhood = A.neighborhood := by cases A; rfl

/-- C7: `NodeDist` is the planar Euclidean distance
`sqrt((A.x - B.x)^2 + (A.y - B.y)^2)`; it depends only on the `x` and
`y` members (replacing either node's altitude `z` leaves it unchanged),
it is total (stated as an unconditional equation), and it is symmetric:
`A.NodeDist B = B.NodeDist A`. -/
theorem nodeDist_planar_symmetric (A B : Node) :
    A.NodeDist B = Real.sqrt ((A.x - B.x) ^ 2 + (A.y - B.y) ^ 2) ∧
    A.NodeDist B = B.NodeDist A ∧
    ∀ zA zB : ℝ, (A.setZ zA).NodeDist (B.setZ zB) = A.NodeDist B := by
  refine ⟨rfl, ?_, ?_⟩
  · unfold NodeDist
    congr 1
    ring
  · intro zA zB
    simp [NodeDist]

/-- C6: `GoalCheck` returns true exactly when the horizontal distance to
the goal is strictly below the node's `neighborhood` radius; at exact
equality it returns false; and it ignores altitude (replacing either
node's `z` does not change the outcome). -/
theorem goalCheck_strict_horizontal (A G : Node) :
    (A.GoalCheck G ↔ A.NodeDist G < A.neighborhood) ∧
    (A.NodeDist G = A.neighborhood → ¬ A.GoalCheck G) ∧
    ∀ zA zG : ℝ, ((A.setZ zA).GoalCheck (G.setZ zG) ↔ A.GoalCheck G) := by
  refine ⟨Iff.rfl, ?_, ?_⟩
  · intro hEq
    simp [GoalCheck, hEq]
  · intro zA zG
    simp [GoalCheck, NodeDist]

/-- Witness for C6 at a concrete boundary input: a node at the origin
(neighborhood 5) and a goal at (3,4) are at distance exactly 5, and the
goal check rejects. -/
theorem goalCheck_strict_horizontal_witness :
    ¬ (Node.init 0 none 0 0 0 0 0 0 0).GoalCheck (Node.init 0 none 0 3 4 0 0 0 0) := by
  apply (goalCheck_strict_horizontal _ _).2.1
  show Real.sqrt (((0:ℝ) - 3) ^ 2 + ((0:ℝ) - 4) ^ 2) = 5
  rw [show ((0:ℝ) - 3) ^ 2 + ((0:ℝ) - 4) ^ 2 = 5 ^ 2 by norm_num]
  exact Real.sqrt_sq (by norm_num)

/-- C8: the ordering comparison holds exactly when `A.g + A.h < B.g + B.h`,
and it is strict: at equal sums it is false, so `g + h` is the sole
ordering key. -/
theorem lt_sum_key (A B : Node) :
    (A.lt B ↔ A.g + A.h < B.g + B.h) ∧
    (A.g + A.h = B.g + B.h → ¬ A.lt B) := by
  refine ⟨Iff.rfl, ?_⟩
  intro hEq
  simp [lt, hEq]

/-- Witness for C8 at a concrete input: two freshly constructed nodes
both have `g + h = 0`, and the comparison rejects. -/
theorem lt_sum_key_witness :
    ¬ (Node.init 0 none 0 0 0 0 0 0 0).lt (Node.init 1 none 0 1 1 1 1 1 1) :=
  (lt_sum_key _ _).2 rfl

/-- C4: an expansion with `m` heading offsets and `n` vspeed offsets
appends exactly `m * n` successors to the node list — the block
`expandList`, one child per (heading index, vspeed index) pair — and
each generated child satisfies the kinematic formulas
`new_x = x + speed * sin(radians(dpsi + psi)) * dt`,
`new_y = y + speed * cos(radians(dpsi + psi)) * dt`,
`new_z = z + vs * dt`, and `new_psi = psi + dpsi` in degrees with no
normalization into [0, 360). -/
theorem generateChildren_grid_product (self : Node) (addr : ℕ) (junk : ℕ → ℤ)
    (heading vspeed : List ℝ) (dt : ℝ) (nodeList : List Node) :
    ((self.GenerateChildren addr junk heading vspeed dt nodeList).2 =
        nodeList ++ expandList self addr junk dt vspeed.length 0 heading) ∧
    ((self.GenerateChildren addr junk heading vspeed dt nodeList).2.length =
        nodeList.length + heading.length * vspeed.length) ∧
    ∀ (jk : ℤ) (dpsi : ℝ),
      (self.mkChild addr jk dpsi dt).x =
          self.x + self.speed * Real.sin ((dpsi + self.psi) * (Real.pi / 180)) * dt ∧
      (self.mkChild addr jk dpsi dt).y =
          self.y + self.speed * Real.cos ((dpsi + self.psi) * (Real.pi / 180)) * dt ∧
      (self.mkChild addr jk dpsi dt).z = self.z + self.vs * dt ∧
      (self.mkChild addr jk dpsi dt).psi = self.psi + dpsi := by
  refine ⟨GenerateChildren_list _ _ _ _ _ _ _, ?_, ?_⟩
  · rw [GenerateChildren_list, List.length_append, length_expandList]
  · intro jk dpsi
    have harg : dpsi * Real.pi / 180 + self.psi * Real.pi / 180 =
        (dpsi + self.psi) * (Real.pi / 180) := by ring
    refine ⟨?_, ?_, ?_, ?_⟩ <;> simp [mkChild, init, AddChild, harg]

/-- C5: every successor produced by an expansion has forward speed equal
to the fixed constant 2, whatever the parent's own `speed` member is. -/
theorem generateChildren_speed_nominal (self : Node) (addr : ℕ) (junk : ℕ → ℤ)
    (heading vspeed : List ℝ) (dt : ℝ) (nodeList : List Node) :
    (((self.GenerateChildren addr junk heading vspeed dt nodeList).2).drop
        nodeList.length).map Node.speed =
      List.replicate (heading.length * vspeed.length) 2 := by
  rw [GenerateChildren_list, List.drop_left]
  have hf : ∀ (jk : ℤ) (dpsi : ℝ),
      Node.speed (self.mkChild addr jk dpsi dt) = (2:ℝ) := by
    intro jk dpsi
    simp [mkChild, init, AddChild]
  rw [map_expandList self addr junk dt vspeed.length Node.speed (fun _ => (2:ℝ)) hf
    heading 0, flatMap_replicate_const]

/-- C9: the constructor sets `g = 0`, `h = 0` and `neighborhood = 5`;
expansion does not write `g` or `h` anywhere: the expanded node comes
out of `GenerateChildren` unchanged, and every appended successor still
has `g = 0` and `h = 0`. -/
theorem init_defaults_expansion_frame :
    (∀ (jk : ℤ) (p : Option ℕ) (idx : ℤ) (xl yl zl psil vsl speedl : ℝ),
        (Node.init jk p idx xl yl zl psil vsl speedl).g = 0 ∧
        (Node.init jk p idx xl yl zl psil vsl speedl).h = 0 ∧
        (Node.init jk p idx xl yl zl psil vsl speedl).neighborhood = 5) ∧
    ∀ (self : Node) (addr : ℕ) (junk : ℕ → ℤ) (heading vspeed : List ℝ)
      (dt : ℝ) (nodeList : List Node),
      (self.GenerateChildren addr junk heading vspeed dt nodeList).1 = self ∧
      (((self.GenerateChildren addr junk heading vspeed dt nodeList).2).drop
          nodeList.length).map Node.g =
        List.replicate (heading.length * vspeed.length) 0 ∧
      (((self.GenerateChildren addr junk heading vspeed dt nodeList).2).drop
          nodeList.length).map Node.h =
        List.replicate (heading.length * vspeed.length) 0 := by
  refine ⟨fun jk p idx xl yl zl psil vsl speedl => ⟨rfl, rfl, rfl⟩, ?_⟩
  intro self addr junk heading vspeed dt nodeList
  refine ⟨rfl, ?_, ?_⟩
  · rw [GenerateChildren_list, List.drop_left]
    have hf : ∀ (jk : ℤ) (dpsi : ℝ), Node.g (self.mkChild addr jk dpsi dt) = (0:ℝ) := by
      intro jk dpsi
      simp [mkChild, init, AddChild]
    rw [map_expandList self addr junk dt vspeed.length Node.g (fun _ => (0:ℝ)) hf
      heading 0, flatMap_replicate_const]
  · rw [GenerateChildren_list, List.drop_left]
    have hf : ∀ (jk : ℤ) (dpsi : ℝ), Node.h (self.mkChild addr jk dpsi dt) = (0:ℝ) := by
      intro jk dpsi
      simp [mkChild, init, AddChild]
    rw [map_expandList self addr junk dt vspeed.length Node.h (fun _ => (0:ℝ)) hf
      heading 0, flatMap_replicate_const]

/-- C10: expansion never touches the expanded node's own `children`
collection (each freshly created successor is added to its own children
list instead), and each appended successor's children list holds exactly
one entry: the copy of the successor taken before the insertion, i.e.
the successor itself with an empty children list. -/
theorem generateChildren_children_frame (self : Node) (addr : ℕ) (junk : ℕ → ℤ)
    (heading vspeed : List ℝ) (dt : ℝ) (nodeList : List Node) :
    (self.GenerateChildren addr junk heading vspeed dt nodeList).1.children =
      self.children ∧
    (((self.GenerateChildren addr junk heading vspeed dt nodeList).2).drop
        nodeList.length).map Node.children =
      (((self.GenerateChildren addr junk heading vspeed dt nodeList).2).drop
        nodeList.length).map (fun c => [c.setChildren []]) := by
  refine ⟨rfl, ?_⟩
  rw [GenerateChildren_list, List.drop_left]
  apply List.map_congr_left
  intro c hc
  rcases mem_expandList self addr junk dt vspeed.length heading 0 c hc with
    ⟨jk, dpsi, _, rfl⟩
  simp [mkChild, init, AddChild]

/-- C1 (bug witness): the source computes `dvs = vspeed[j]` but never
uses it — the child is constructed with the parent's `vs`.  Expanding a
parent with vertical speed 0 over the vspeed grid `[7]` yields one
successor whose vertical speed is 0, not the grid value 7. -/
theorem generateChildren_vs_from_parent_bug :
    ((Node.init 0 none 0 0 0 0 0 0 2).GenerateChildren 0 (fun _ => 0)
        [0] [7] 1 []).2.map Node.vs = [0] ∧ (0:ℝ) ≠ 7 := by
  constructor
  · simp [GenerateChildren, genH, genVS, init, AddChild]
  · norm_num

/-- C2 (bug witness): the constructor body never assigns the member
`index` — its `int index` parameter is unused, so the member keeps the
indeterminate value of the fresh memory (modelled by the explicit junk
argument).  A node constructed over memory holding 99 with index
argument 0 stores 99; likewise the single successor generated into an
empty node list stores the junk value 99 rather than the list size 0. -/
theorem index_never_assigned_bug :
    (Node.init 99 none 0 1 2 3 4 5 6).index = 99 ∧
    ((Node.init 0 none 0 0 0 0 0 0 2).GenerateChildren 0 (fun _ => 99)
        [0] [7] 1 []).2.map Node.index = [99] ∧
    (99:ℤ) ≠ 0 := by
  refine ⟨rfl, ?_, by decide⟩
  simp [GenerateChildren, genH, genVS, init, AddChild]

/-- C3 (bug witness): on a node with no children, `AddChild` appends the
candidate but reaches the end of the `bool` function without executing
any return statement (`none`: no value returned, where the spec says
`true`); the second call with the same index finds the duplicate,
returns `false`, and leaves the children collection unchanged. -/
theorem addChild_missing_return_bug :
    (let N := Node.init 0 none 0 0 0 0 0 0 0
     let C := Node.init 5 none 0 1 1 1 1 1 1
     (N.AddChild C).1 = none ∧
     (N.AddChild C).2.children = [C] ∧
     ((N.AddChild C).2.AddChild C).1 = some false ∧
     ((N.AddChild C).2.AddChild C).2 = (N.AddChild C).2) := by
  refine ⟨?_, ?_, ?_, ?_⟩ <;> simp [AddChild, init]

end Node
